import Mathlib

/-!
Verification of the market-data reconciliation core of a PSE stocks advisor.

Python strings are modelled as lists of character codes (`Str := List Nat`),
floats as exact rationals (`Rat`) or reals where `math.sqrt` is involved,
dictionaries as association lists, and each provider call's outcome as an
explicit `Option`/sum value (the code converts every transport failure into
an empty/falsy result at the point of failure).
-/

set_option maxRecDepth 10000

/-- Python strings, modelled as lists of Unicode code points. -/
abbrev Str : Type := List Nat

/-- Code points of a Lean string literal (used to write concrete inputs). -/
def strCodes (s : String) : Str := s.toList.map Char.toNat

/-- ASCII uppercasing of one code point, as Python `str.upper` acts on ASCII. -/
def upperN (n : Nat) : Nat := if 97 ≤ n ∧ n ≤ 122 then n - 32 else n

/-- Python `s.upper()` on the ASCII fragment. -/
def pyUpper (s : Str) : Str := s.map upperN

/-- Python `s.replace(".PS", "")`: remove every non-overlapping occurrence of
the three-character pattern `.PS` (codes 46, 80, 83), scanning left to right. -/
def stripPS : Str → Str
  | [] => []
  | [a] => [a]
  | [a, b] => [a, b]
  | a :: b :: c :: rest =>
    if a = 46 ∧ b = 80 ∧ c = 83 then stripPS rest
    else a :: stripPS (b :: c :: rest)

/-- Whether the pattern `.PS` occurs in a string. -/
def hasPS : Str → Bool
  | [] => false
  | [_] => false
  | [_, _] => false
  | a :: b :: c :: rest =>
    if a = 46 ∧ b = 80 ∧ c = 83 then true else hasPS (b :: c :: rest)

/-- The symbol-cleaning step performed at the entry of `validate_pse_symbol`
and of every data service: `symbol.upper().replace(".PS", "")`. -/
def normalizeSym (s : Str) : Str := stripPS (pyUpper s)

/-- Substring test (`needle in hay` for Python strings). -/
def hasSubList (needle hay : Str) : Bool :=
  match hay with
  | [] => needle = []
  | _ :: rest => needle.isPrefixOf hay || hasSubList needle rest

/-- A string with no lowercase ASCII letter. -/
def noLowerAscii (s : Str) : Prop := ∀ x ∈ s, ¬(97 ≤ x ∧ x ≤ 122)

/-- Lexicographic strict order on strings, as Python compares `str` values. -/
def lexLt : Str → Str → Bool
  | [], [] => false
  | [], _ :: _ => true
  | _ :: _, [] => false
  | a :: as, b :: bs => if a < b then true else if b < a then false else lexLt as bs

/-- Round half to even, the rounding mode of Python's builtin `round`. -/
def rhe {α : Type} [LinearOrderedField α] [FloorRing α] (x : α) : ℤ :=
  if x - (⌊x⌋ : α) < 1 / 2 then ⌊x⌋
  else if 1 / 2 < x - (⌊x⌋ : α) then ⌊x⌋ + 1
  else if ⌊x⌋ % 2 = 0 then ⌊x⌋ else ⌊x⌋ + 1

/-- Python `round(x, n)` on exact values. -/
def pyRound {α : Type} [LinearOrderedField α] [FloorRing α] (n : Nat) (x : α) : α :=
  (rhe (x * 10 ^ n) : α) / 10 ^ n

/-- Lookup in an association list (Python dict access by key). -/
def lookupA {β : Type} : List (Str × β) → Str → Option β
  | [], _ => none
  | (k, v) :: rest, key => if k = key then some v else lookupA rest key

/-- Maximum over the keys of a non-empty trend mapping (Python `max(d.keys())`,
lexicographic string comparison); `[]` for an empty mapping. -/
def maxKey {β : Type} : List (Str × β) → Str
  | [] => []
  | (k, _) :: rest => rest.foldl (fun m kv => if lexLt m kv.1 then kv.1 else m) k

/- ------------------------------------------------------------------
DragonFi client (`data/dragonfi.py`)
------------------------------------------------------------------ -/

/-- A DragonFi stock profile, as returned by `GetStockProfile`.  Only the
fields the verified functions read are modelled; a missing/null field is
`none` where the code distinguishes that, else the falsy default. -/
structure DfProfile where
  stockCode : Option Str := none   -- `profile.get("stockCode")`
  dividendYield : ℚ := 0           -- `profile.get("dividendYield", 0) or 0`
  price : ℚ := 0                   -- `profile.get("price", 0) or 0`
  sharesOutstanding : ℚ := 0       -- `profile.get("sharesOutstanding", 0) or 0`
  isREIT : Bool := false           -- `profile.get("isREIT", False)`

/-- The text around the cleaned symbol in the `SymbolNotFoundError` message
(`f"Symbol '{clean}' is not listed …"`); 39 is the apostrophe. -/
def symbolNotFoundMsg (clean : Str) : Str :=
  strCodes "Symbol " ++ [39] ++ clean ++ [39] ++
    strCodes " is not listed on the Philippine Stock Exchange. " ++
    strCodes "Please verify the ticker at https://dragonfi.ph/market/stocks/"

/-- Model of `validate_pse_symbol`, as a function of the process-cached common-stock
code set (`_fetch_all_stock_codes()`) and of the outcome of the direct
`GetStockProfile` lookup.  The only exception the function raises is
`SymbolNotFoundError`, modelled by the `Except.error` branch carrying the
message. -/
def validate_pse_symbol (allCodes : List Str) (profile : Option DfProfile)
    (symbol : Str) : Except Str Str :=
  let clean := normalizeSym symbol
  if clean ∈ allCodes then .ok clean
  else
    match profile with
    | some p =>
      match p.stockCode with
      | some sc => if sc ≠ [] then .ok (pyUpper sc) else .error (symbolNotFoundMsg clean)
      | none => .error (symbolNotFoundMsg clean)
    | none => .error (symbolNotFoundMsg clean)

/-- A JSON value appearing in a DragonFi annual series mapping: `null`, a
number, or something `float()` cannot convert (on which the code's
`try`/`except` skips the entry). -/
inductive JVal : Type
  | null : JVal
  | num : ℚ → JVal
  | nonnum : JVal
deriving DecidableEq

/-- Result of `float(val)` where it succeeds. -/
def jfloat : JVal → Option ℚ
  | .num q => some q
  | _ => none

/-- Python `key.isdigit()` on the ASCII fragment: non-empty, all digits. -/
def isDigitStr (s : Str) : Bool := s ≠ [] && s.all (fun n => 48 ≤ n && n ≤ 57)

/-- Model of `_extract_annual_values`: keep entries whose key has no underscore (95),
is all digits, and whose value is non-null and numeric. -/
def extractAnnualValues (series : List (Str × JVal)) : List (Str × ℚ) :=
  series.foldl
    (fun result kv =>
      if 95 ∈ kv.1 ∨ ¬ isDigitStr kv.1 ∨ kv.2 = JVal.null then result
      else
        match jfloat kv.2 with
        | some q => result ++ [(kv.1, q)]
        | none => result)
    []

/-- The spec's description of `_extract_annual_values` for comparison:
retain exactly the entries with a purely 4-digit key and a non-null numeric
value. -/
def extractAnnual4Digit (series : List (Str × JVal)) : List (Str × ℚ) :=
  series.filterMap
    (fun kv =>
      if kv.1.length = 4 ∧ isDigitStr kv.1 then
        (jfloat kv.2).map (fun q => (kv.1, q))
      else none)

/-- The all-digit-key variant actually implemented by the code. -/
def extractAnnualDigits (series : List (Str × JVal)) : List (Str × ℚ) :=
  series.filterMap
    (fun kv =>
      if isDigitStr kv.1 then (jfloat kv.2).map (fun q => (kv.1, q))
      else none)

/- ------------------------------------------------------------------
PSE EDGE client (`data/pse_edge.py`)
------------------------------------------------------------------ -/

/-- The per-call environment of `_resolve_ids`: the outcome of the
autocomplete lookup (`_resolve_cmpy_id`) and of the stockData-page scrape
(`_resolve_security_id`).  `none` covers any transport failure, non-200
status or no-match outcome, all of which those helpers convert to `None`. -/
structure EdgeResolveEnv where
  autoComplete : Str → Option Str
  stockDataPage : Str → Option Str

/-- Model of `_resolve_ids`: resolve `(cmpy_id, security_id)` with the `_ID_CACHE`
association list as explicit state.  The third component records whether any
network helper was consulted (`false` on a cache hit). -/
def resolveIds (env : EdgeResolveEnv) (cache : List (Str × (Str × Str)))
    (symbol : Str) : Option (Str × Str) × List (Str × (Str × Str)) × Bool :=
  let s := pyUpper symbol
  match lookupA cache s with
  | some p => (some p, cache, false)
  | none =>
    match env.autoComplete s with
    | none => (none, cache, true)
    | some cid =>
      if cid = [] then (none, cache, true)   -- `if not cmpy_id`
      else
        match env.stockDataPage cid with
        | none => (none, cache, true)
        | some sid =>
          if sid = [] then (none, cache, true)   -- `if not security_id`
          else (some (cid, sid), (s, (cid, sid)) :: cache, true)

/-- One record of the `chartData` array.  OHLCV fields are modelled as the
numeric content of `float(rec.get(FIELD, 0))`; `CHART_DATE` is the raw date
string (`rec.get("CHART_DATE", "")`). -/
structure ChartRec where
  CHART_DATE : Str
  OPEN : ℚ
  HIGH : ℚ
  LOW : ℚ
  CLOSE : ℚ
  VALUE : ℚ
deriving DecidableEq

/-- One row of the resulting DataFrame.  `date` is the parsed datetime
(abstract); `srcDate` additionally records the originating `CHART_DATE`
string so that per-date-string properties can be stated. -/
structure OhlcvRow where
  srcDate : Str
  date : ℕ
  Open : ℚ
  High : ℚ
  Low : ℚ
  Close : ℚ
  Volume : ℚ
deriving DecidableEq

/-- The row dict appended for a record whose date parsed to `d`. -/
def recToRow (rec : ChartRec) (d : ℕ) : OhlcvRow :=
  { srcDate := rec.CHART_DATE, date := d, Open := rec.OPEN, High := rec.HIGH,
    Low := rec.LOW, Close := rec.CLOSE, Volume := rec.VALUE }

/-- The row-building loop of `fetch_pse_edge_ohlcv`: walk `chartData`,
skip a record whose exact `CHART_DATE` string was already seen, add the
string to `seen`, drop the record if `strptime` fails, else append a row.
`parse` abstracts `datetime.strptime(date_str, "%b %d, %Y %H:%M:%S")`
(a fixed function of the string; `none` = `ValueError`). -/
def buildRowsAux (parse : Str → Option ℕ) (seen : List Str) :
    List ChartRec → List OhlcvRow
  | [] => []
  | rec :: rest =>
    if rec.CHART_DATE ∈ seen then buildRowsAux parse seen rest
    else
      match parse rec.CHART_DATE with
      | none => buildRowsAux parse (rec.CHART_DATE :: seen) rest
      | some d => recToRow rec d :: buildRowsAux parse (rec.CHART_DATE :: seen) rest

/-- The rows built from a `chartData` array. -/
def buildRows (parse : Str → Option ℕ) (chartData : List ChartRec) : List OhlcvRow :=
  buildRowsAux parse [] chartData

/-- First-occurrence deduplication of records by exact `CHART_DATE` string
(the specification-side description of what the `seen_dates` set achieves). -/
def dedupFirstAux (seen : List Str) : List ChartRec → List ChartRec
  | [] => []
  | rec :: rest =>
    if rec.CHART_DATE ∈ seen then dedupFirstAux seen rest
    else rec :: dedupFirstAux (rec.CHART_DATE :: seen) rest

/-- First occurrence per exact `CHART_DATE` string, in provider order. -/
def dedupFirst (chartData : List ChartRec) : List ChartRec :=
  dedupFirstAux [] chartData

/-- Outcome of the guarded `requests.post` + `resp.json()` block:
`netFail` when the request itself raised (caught by the outer handler),
else the status code and — when the body was parseable — the `chartData`
array (`data.get("chartData", [])`; `none` = `.json()` raised). -/
inductive PostResult : Type
  | netFail : PostResult
  | resp : Nat → Option (List ChartRec) → PostResult

/-- Model of `fetch_pse_edge_ohlcv` as a function of the id-resolution outcome and
the POST outcome.  Every failure branch returns the empty table; the final
table is the rows sorted by parsed date (`df.sort_index()`).  The function
is total: no branch can raise to the caller. -/
def fetch_pse_edge_ohlcv (ids : Option (Str × Str)) (post : PostResult)
    (parse : Str → Option ℕ) : List OhlcvRow :=
  match ids with
  | none => []
  | some _ =>
    match post with
    | .netFail => []
    | .resp status body =>
      if status ≠ 200 then []
      else
        match body with
        | none => []
        | some chartData =>
          if chartData = [] then []
          else
            let rows := buildRows parse chartData
            if rows = [] then []
            else List.insertionSort (fun a b => a.date ≤ b.date) rows

/- ------------------------------------------------------------------
Movement service (`data/movement_service.py`), primary branch
------------------------------------------------------------------ -/

/-- Running maxima continuing from `m` (`pandas cummax`). -/
def cummaxFrom (m : ℚ) : List ℚ → List ℚ
  | [] => []
  | c :: cs => max m c :: cummaxFrom (max m c) cs

/-- Model of `hist["Close"].cummax()`. -/
def cummaxList : List ℚ → List ℚ
  | [] => []
  | c :: cs => c :: cummaxFrom c cs

/-- Model of `(hist["Close"] - cummax) / cummax * 100`, elementwise.  (Exact-rational
model: division by zero yields 0 where a float would give NaN/inf.) -/
def drawdownList (closes : List ℚ) : List ℚ :=
  List.zipWith (fun c m => (c - m) / m * 100) closes (cummaxList closes)

/-- Model of `round(float(drawdown.min()), 2) if len(drawdown) > 0 else 0.0`, the
`max_drawdown_pct` field of the snapshot built in the primary branch of
`fetch_price_movement`. -/
def maxDrawdownPct (closes : List ℚ) : ℚ :=
  match drawdownList closes with
  | [] => 0
  | d :: ds => pyRound 2 (ds.foldl min d)

/-- Predicate for no close ever falling below the running maximum of closes. -/
def noDecline (closes : List ℚ) : Prop :=
  ∀ p ∈ List.zip closes (cummaxList closes), p.2 ≤ p.1

/- ------------------------------------------------------------------
Dividend service (`data/dividend_service.py`)
------------------------------------------------------------------ -/

/-- The numeric/boolean content of the `DividendInfo` model constructed by
`fetch_dividend_info` (narrative/news text fields omitted).
`payout` is the source's `payout_ratio` field. -/
structure DividendInfo where
  symbol : Str
  dividend_rate : ℚ
  dividend_yield : ℚ
  payout : ℚ
  is_reit : Bool
  annual_dividend_per_share : ℚ
  net_income_trend : List (Str × ℚ)
  revenue_trend : List (Str × ℚ)
  free_cash_flow_trend : List (Str × ℚ)

/-- Model of `fetch_dividend_info`, as a function of the profile outcome and of the
fetched annual trends (`fetch_annual_income_trends` /
`fetch_annual_cashflow_trends` results, passed as environment). -/
def fetch_dividend_info (symbol : Str) (profile : Option DfProfile)
    (netIncomeTrend revenueTrend fcfTrend : List (Str × ℚ)) : DividendInfo :=
  let sym := normalizeSym symbol
  let empty : DividendInfo :=
    { symbol := sym, dividend_rate := 0, dividend_yield := 0, payout := 0,
      is_reit := false, annual_dividend_per_share := 0, net_income_trend := [],
      revenue_trend := [], free_cash_flow_trend := [] }
  match profile with
  | none => empty
  | some p =>
    let divYieldRaw := p.dividendYield
    if 0 < divYieldRaw then
      -- DragonFi dividend yield is a percentage → normalise to decimal
      let divYield := if 1 < divYieldRaw then divYieldRaw / 100 else divYieldRaw
      let currentPrice := p.price
      let sharesOutstanding := p.sharesOutstanding
      let rate := if currentPrice ≠ 0 then pyRound 4 (currentPrice * divYield) else 0
      let payout0 :=
        if 0 < rate ∧ 0 < sharesOutstanding ∧ netIncomeTrend ≠ [] then
          let latestYear := maxKey netIncomeTrend
          let latestNI := (lookupA netIncomeTrend latestYear).getD 0
          if 0 < latestNI then pyRound 4 (rate * sharesOutstanding / latestNI) else 0
        else 0
      { symbol := sym, dividend_rate := rate, dividend_yield := divYield,
        payout := payout0, is_reit := p.isREIT, annual_dividend_per_share := rate,
        net_income_trend := netIncomeTrend, revenue_trend := revenueTrend,
        free_cash_flow_trend := fcfTrend }
    else empty

/- ------------------------------------------------------------------
Valuation service (`data/valuation_service.py`)
------------------------------------------------------------------ -/

/-- Model of `_graham_number(eps, book_value)`:
`round(sqrt(22.5 * eps * book_value), 2)` when both inputs are strictly
positive, else `0.0`.  Modelled over the reals (`math.sqrt`). -/
noncomputable def grahamNumber (eps bookValue : ℝ) : ℝ :=
  if 0 < eps ∧ 0 < bookValue then pyRound 2 (Real.sqrt (22.5 * eps * bookValue))
  else 0

/- ------------------------------------------------------------------
Candlestick detector (`data/candlestick.py`)
------------------------------------------------------------------ -/

/-- The content of one notable-candle description string: the date, the
O/H/L/C figures and the signed body percentage it is formatted from, and
the bullish/bearish label. -/
structure NotableDesc where
  date : ℕ
  Open : ℚ
  High : ℚ
  Low : ℚ
  Close : ℚ
  bodyPct : ℚ
  bullish : Bool
deriving DecidableEq

/-- The `results` list of `_detect_notable_candles`: one
`(abs(body_pct), description)` pair per row with non-zero open and
`abs(body_pct) >= body_threshold_pct`, in row order. -/
def notableResults (bodyThresholdPct : ℚ) (rows : List OhlcvRow) :
    List (ℚ × NotableDesc) :=
  rows.filterMap (fun r =>
    if r.Open = 0 then none
    else
      let bodyPct := (r.Close - r.Open) / r.Open * 100
      if bodyThresholdPct ≤ |bodyPct| then
        some (|bodyPct|,
          { date := r.date, Open := r.Open, High := r.High, Low := r.Low,
            Close := r.Close, bodyPct := bodyPct, bullish := 0 < bodyPct })
      else none)

/-- Model of `_detect_notable_candles`: sort the collected pairs by the first
component descending (stable, like `list.sort` with `key`/`reverse=True`),
keep the top `top_n`, return the descriptions. -/
def detectNotableCandles (bodyThresholdPct : ℚ := 5) (topN : ℕ := 5)
    (rows : List OhlcvRow) : List NotableDesc :=
  ((List.insertionSort (fun a b => b.1 ≤ a.1)
      (notableResults bodyThresholdPct rows)).take topN).map (·.2)

/-- A concrete resolution environment in which both lookups succeed
(used to exercise the cache-update path on a concrete input). -/
def edgeEnvW : EdgeResolveEnv :=
  { autoComplete := fun _ => some (strCodes "600"),
    stockDataPage := fun _ => some (strCodes "146") }

theorem upperN_idem (n : Nat) : upperN (upperN n) = upperN n := by
  unfold upperN
  split_ifs <;> omega

theorem upperN_not_lower (n : Nat) : ¬(97 ≤ upperN n ∧ upperN n ≤ 122) := by
  unfold upperN
  split_ifs <;> omega

theorem rhe_zero {α : Type} [LinearOrderedField α] [FloorRing α] : rhe (0 : α) = 0 := by
  unfold rhe
  norm_num

theorem rhe_mono {α : Type} [LinearOrderedField α] [FloorRing α] {x y : α}
    (h : x ≤ y) : rhe x ≤ rhe y := by
  have hf : ⌊x⌋ ≤ ⌊y⌋ := Int.floor_mono h
  rcases lt_or_eq_of_le hf with hlt | heq
  · unfold rhe
    split_ifs <;> omega
  · have hcast : (⌊x⌋ : α) = (⌊y⌋ : α) := by exact_mod_cast heq
    have hr : x - (⌊x⌋ : α) ≤ y - (⌊y⌋ : α) := by rw [hcast]; linarith
    unfold rhe
    split_ifs <;> first
      | omega
      | (exfalso; push_neg at *; linarith)

theorem rhe_nonpos {α : Type} [LinearOrderedField α] [FloorRing α] {x : α}
    (h : x ≤ 0) : rhe x ≤ 0 := by
  have := rhe_mono (α := α) h
  rwa [rhe_zero] at this

theorem rhe_nonneg {α : Type} [LinearOrderedField α] [FloorRing α] {x : α}
    (h : 0 ≤ x) : 0 ≤ rhe x := by
  have := rhe_mono (α := α) h
  rwa [rhe_zero] at this

theorem pyRound_mono {α : Type} [LinearOrderedField α] [FloorRing α] (n : Nat)
    {x y : α} (h : x ≤ y) : pyRound n x ≤ pyRound n y := by
  unfold pyRound
  have hp : (0 : α) < 10 ^ n := by positivity
  have hm : x * 10 ^ n ≤ y * 10 ^ n := by
    exact mul_le_mul_of_nonneg_right h (le_of_lt hp)
  have := rhe_mono hm
  have hc : ((rhe (x * 10 ^ n) : ℤ) : α) ≤ ((rhe (y * 10 ^ n) : ℤ) : α) := by
    exact_mod_cast this
  exact div_le_div_of_nonneg_right hc hp.le

theorem pyRound_zero {α : Type} [LinearOrderedField α] [FloorRing α] (n : Nat) :
    pyRound n (0 : α) = 0 := by
  unfold pyRound
  rw [zero_mul, rhe_zero]
  simp

theorem pyRound_nonpos {α : Type} [LinearOrderedField α] [FloorRing α] (n : Nat)
    {x : α} (h : x ≤ 0) : pyRound n x ≤ 0 := by
  have := pyRound_mono (α := α) n h
  rwa [pyRound_zero] at this

theorem pyRound_nonneg {α : Type} [LinearOrderedField α] [FloorRing α] (n : Nat)
    {x : α} (h : 0 ≤ x) : 0 ≤ pyRound n x := by
  have := pyRound_mono (α := α) n h
  rwa [pyRound_zero] at this

theorem isPrefixOf_append (s t : Str) : List.isPrefixOf s (s ++ t) = true := by
  induction s with
  | nil => simp [List.isPrefixOf]
  | cons a s ih => simp [List.isPrefixOf, ih]

theorem hasSubList_append (pre mid post : Str) :
    hasSubList mid (pre ++ mid ++ post) = true := by
  induction pre with
  | nil =>
    cases mid with
    | nil => cases post <;> simp [hasSubList]
    | cons a m => simp [hasSubList, isPrefixOf_append]
  | cons a p ih =>
    rw [List.cons_append, List.cons_append, hasSubList, ih, Bool.or_true]

theorem stripPS_subset : ∀ l : Str, ∀ x ∈ stripPS l, x ∈ l := by
  intro l
  induction l using stripPS.induct with
  | case1 => intro x hx; exact absurd hx (List.not_mem_nil x)
  | case2 a => intro x hx; simpa [stripPS] using hx
  | case3 a b => intro x hx; simpa [stripPS] using hx
  | case4 a b c rest h ih =>
    intro x hx
    rw [stripPS, if_pos h] at hx
    simp [ih x hx]
  | case5 a b c rest h ih =>
    intro x hx
    rw [stripPS, if_neg h] at hx
    rcases List.mem_cons.mp hx with rfl | hx2
    · exact List.mem_cons_self _ _
    · exact List.mem_cons_of_mem a (ih x hx2)

theorem stripPS_of_hasPS_false : ∀ l : Str, hasPS l = false → stripPS l = l := by
  intro l
  induction l using stripPS.induct with
  | case1 => intro _; rfl
  | case2 a => intro _; rfl
  | case3 a b => intro _; rfl
  | case4 a b c rest h ih =>
    intro hfalse
    rw [hasPS, if_pos h] at hfalse
    exact absurd hfalse (by simp)
  | case5 a b c rest h ih =>
    intro hfalse
    rw [hasPS, if_neg h] at hfalse
    rw [stripPS, if_neg h, ih hfalse]

theorem map_fixed_of_mem {f : Nat → Nat} :
    ∀ l : Str, (∀ x ∈ l, f x = x) → l.map f = l := by
  intro l
  induction l with
  | nil => intro _; rfl
  | cons a rest ih =>
    intro h
    have ha := h a (List.mem_cons_self a rest)
    have hr := ih (fun x hx => h x (List.mem_cons_of_mem a hx))
    simp [ha, hr]

theorem pyUpper_idem (s : Str) : pyUpper (pyUpper s) = pyUpper s := by
  unfold pyUpper
  apply map_fixed_of_mem
  intro x hx
  rcases List.mem_map.mp hx with ⟨y, _, rfl⟩
  exact upperN_idem y

theorem noLower_pyUpper (s : Str) : noLowerAscii (pyUpper s) := by
  intro x hx
  rcases List.mem_map.mp hx with ⟨y, _, rfl⟩
  exact upperN_not_lower y

theorem noLower_normalizeSym (s : Str) : noLowerAscii (normalizeSym s) := by
  intro x hx
  exact noLower_pyUpper s x (stripPS_subset (pyUpper s) x hx)

theorem pyUpper_normalizeSym (s : Str) : pyUpper (normalizeSym s) = normalizeSym s := by
  unfold normalizeSym pyUpper
  apply map_fixed_of_mem
  intro x hx
  have hmem := stripPS_subset (pyUpper s) x hx
  rcases List.mem_map.mp hmem with ⟨y, _, rfl⟩
  exact upperN_idem y

/-- C7 (amended): the cleaning step `x.upper().replace(".PS", "")` of
`validate_pse_symbol` and the service functions is idempotent on every
input whose cleaned form contains no further `.PS` occurrence.  (Removing
all `.PS` occurrences can splice a new `.PS` together, on which a second
pass strips again — see the counterexample.) -/
theorem normalizeSym_idem_of_no_ps (s : Str)
    (h : hasPS (normalizeSym s) = false) :
    normalizeSym (normalizeSym s) = normalizeSym s := by
  show stripPS (pyUpper (normalizeSym s)) = normalizeSym s
  rw [pyUpper_normalizeSym]
  exact stripPS_of_hasPS_false _ h

/-- Witness for C7: the amended idempotence at the concrete raw symbol
`"jfc.ps"`. -/
theorem normalizeSym_idem_witness :
    hasPS (normalizeSym (strCodes "jfc.ps")) = false ∧
    normalizeSym (normalizeSym (strCodes "jfc.ps")) = normalizeSym (strCodes "jfc.ps") :=
  ⟨by decide, normalizeSym_idem_of_no_ps (strCodes "jfc.ps") (by decide)⟩

/-- Counterexample for C7 as stated: on `".P.PSS"` the cleaning step is not
idempotent — one pass yields `".PS"`, a second pass yields `""`. -/
theorem normalizeSym_not_idempotent :
    normalizeSym (normalizeSym (strCodes ".P.PSS")) ≠ normalizeSym (strCodes ".P.PSS") := by
  decide

/-- C1 (amended): whenever the cleaned symbol is not in the cached code set
and the profile lookup yields no mapping with a non-empty `stockCode`,
`validate_pse_symbol` fails with `SymbolNotFoundError`; the only error it
ever produces is that one message, which references the cleaned
(uppercased, `.PS`-stripped) form of the input; and any success returns an
uppercase code. -/
theorem validate_pse_symbol_spec (allCodes : List Str) (profile : Option DfProfile)
    (symbol : Str) :
    (normalizeSym symbol ∉ allCodes ∧
        (∀ p sc, profile = some p → p.stockCode = some sc → sc = []) →
      validate_pse_symbol allCodes profile symbol =
        .error (symbolNotFoundMsg (normalizeSym symbol))) ∧
    (∀ m, validate_pse_symbol allCodes profile symbol = .error m →
      m = symbolNotFoundMsg (normalizeSym symbol) ∧
      hasSubList (normalizeSym symbol) m = true) ∧
    (∀ r, validate_pse_symbol allCodes profile symbol = .ok r → noLowerAscii r) := by
  have hsub : hasSubList (normalizeSym symbol)
      (symbolNotFoundMsg (normalizeSym symbol)) = true := by
    unfold symbolNotFoundMsg
    rw [show strCodes "Symbol " ++ [39] ++ normalizeSym symbol ++ [39] ++
        strCodes " is not listed on the Philippine Stock Exchange. " ++
        strCodes "Please verify the ticker at https://dragonfi.ph/market/stocks/" =
        (strCodes "Symbol " ++ [39]) ++ normalizeSym symbol ++
        ([39] ++ strCodes " is not listed on the Philippine Stock Exchange. " ++
          strCodes "Please verify the ticker at https://dragonfi.ph/market/stocks/")
      from by simp [List.append_assoc]]
    exact hasSubList_append _ _ _
  have finishErr : validate_pse_symbol allCodes profile symbol =
      .error (symbolNotFoundMsg (normalizeSym symbol)) →
      (normalizeSym symbol ∉ allCodes ∧
        (∀ p sc, profile = some p → p.stockCode = some sc → sc = []) →
        validate_pse_symbol allCodes profile symbol =
          .error (symbolNotFoundMsg (normalizeSym symbol))) ∧
      (∀ m, validate_pse_symbol allCodes profile symbol = .error m →
        m = symbolNotFoundMsg (normalizeSym symbol) ∧
        hasSubList (normalizeSym symbol) m = true) ∧
      (∀ r, validate_pse_symbol allCodes profile symbol = .ok r → noLowerAscii r) := by
    intro heq
    refine ⟨fun _ => heq, fun m hm => ?_, fun r hr => ?_⟩
    · rw [heq] at hm
      injection hm with h
      subst h
      exact ⟨rfl, hsub⟩
    · rw [heq] at hr
      cases hr
  by_cases hmem : normalizeSym symbol ∈ allCodes
  · have heq : validate_pse_symbol allCodes profile symbol = .ok (normalizeSym symbol) := by
      simp [validate_pse_symbol, hmem]
    refine ⟨fun h => absurd hmem h.1, fun m hm => ?_, fun r hr => ?_⟩
    · rw [heq] at hm
      cases hm
    · rw [heq] at hr
      injection hr with h
      subst h
      exact noLower_normalizeSym symbol
  · rcases profile with _ | p
    · exact finishErr (by simp [validate_pse_symbol, hmem])
    · rcases hsc : p.stockCode with _ | sc
      · exact finishErr (by simp [validate_pse_symbol, hmem, hsc])
      · by_cases hnil : sc = []
        · exact finishErr (by simp [validate_pse_symbol, hmem, hsc, hnil])
        · have heq : validate_pse_symbol allCodes (some p) symbol = .ok (pyUpper sc) := by
            simp [validate_pse_symbol, hmem, hsc, hnil]
          refine ⟨fun h => ?_, fun m hm => ?_, fun r hr => ?_⟩
          · exact absurd (h.2 p sc rfl hsc) hnil
          · rw [heq] at hm
            cases hm
          · rw [heq] at hr
            injection hr with h
            subst h
            exact noLower_pyUpper sc

/-- Witness for C1: unknown ticker `"jfc"` against an empty cached code set
and a failed profile lookup. -/
theorem validate_pse_symbol_witness :
    validate_pse_symbol [] none (strCodes "jfc") =
      .error (symbolNotFoundMsg (strCodes "JFC")) ∧
    hasSubList (strCodes "JFC") (symbolNotFoundMsg (strCodes "JFC")) = true := by
  have h := validate_pse_symbol_spec [] none (strCodes "jfc")
  have h1 := h.1 ⟨List.not_mem_nil _, fun p sc hp => by cases hp⟩
  exact ⟨h1, (h.2.1 _ h1).2⟩

/-- Counterexample for C1 as stated: for the raw input `"jfc.ps"` the raised
message embeds the cleaned code `"JFC"` and does not contain the original
input `"jfc.ps"` at all. -/
theorem validate_pse_symbol_cex :
    validate_pse_symbol [] none (strCodes "jfc.ps") =
      .error (symbolNotFoundMsg (strCodes "JFC")) ∧
    hasSubList (strCodes "jfc.ps") (symbolNotFoundMsg (strCodes "JFC")) = false :=
  ⟨rfl, by decide⟩


theorem isDigitStr_false_of_underscore {k : Str} (h : (95 : Nat) ∈ k) :
    isDigitStr k = false := by
  unfold isDigitStr
  have hall : k.all (fun n => 48 ≤ n && n ≤ 57) = false := by
    rcases Bool.eq_false_or_eq_true (k.all (fun n => 48 ≤ n && n ≤ 57)) with ht | hf
    · exact absurd (List.all_eq_true.mp ht 95 h) (by decide)
    · exact hf
  rw [hall, Bool.and_false]

theorem extractAnnual_foldl :
    ∀ (series : List (Str × JVal)) (acc : List (Str × ℚ)),
      series.foldl
        (fun result kv =>
          if 95 ∈ kv.1 ∨ ¬ isDigitStr kv.1 ∨ kv.2 = JVal.null then result
          else
            match jfloat kv.2 with
            | some q => result ++ [(kv.1, q)]
            | none => result) acc
      = acc ++ extractAnnualDigits series := by
  intro series
  induction series with
  | nil => intro acc; simp [extractAnnualDigits]
  | cons kv rest ih =>
    intro acc
    obtain ⟨k, v⟩ := kv
    rw [List.foldl_cons]
    by_cases h1 : (95 : Nat) ∈ k
    · have hd := isDigitStr_false_of_underscore h1
      rw [if_pos (Or.inl h1), ih]
      unfold extractAnnualDigits
      rw [List.filterMap_cons]
      simp [hd]
    · by_cases h2 : isDigitStr k
      · by_cases h3 : v = JVal.null
        · subst h3
          rw [if_pos (Or.inr (Or.inr rfl)), ih]
          unfold extractAnnualDigits
          rw [List.filterMap_cons]
          simp [h2, jfloat]
        · rw [if_neg (by push_neg; exact ⟨h1, h2, h3⟩)]
          cases hv : jfloat v with
          | some q =>
            simp only [hv, ih]
            unfold extractAnnualDigits
            rw [List.filterMap_cons]
            simp [h2, hv, List.append_assoc]
          | none =>
            simp only [hv, ih]
            unfold extractAnnualDigits
            rw [List.filterMap_cons]
            simp [h2, hv]
      · rw [if_pos (Or.inr (Or.inl h2)), ih]
        unfold extractAnnualDigits
        rw [List.filterMap_cons]
        simp [h2]

/-- C9 (amended): `_extract_annual_values` returns exactly the entries whose
key is a non-empty all-digit string (the code checks digit-ness, not
length-4) and whose value is non-null and numeric, each mapped to its
numeric value, preserving order; it is a pure function with no I/O. -/
theorem extractAnnualValues_spec (series : List (Str × JVal)) :
    extractAnnualValues series = extractAnnualDigits series := by
  unfold extractAnnualValues
  simpa using extractAnnual_foldl series []

/-- Counterexample for C9 as stated: the non-4-digit key `"123"` is retained
by `_extract_annual_values`, while the claimed purely-4-digit filter drops
it. -/
theorem extractAnnualValues_cex :
    extractAnnualValues [(strCodes "123", JVal.num 1)] = [(strCodes "123", 1)] ∧
    extractAnnual4Digit [(strCodes "123", JVal.num 1)] = [] := by
  exact ⟨rfl, rfl⟩

theorem buildRowsAux_eq_dedup_filterMap (parse : Str → Option ℕ) :
    ∀ (l : List ChartRec) (seen : List Str),
      buildRowsAux parse seen l =
        (dedupFirstAux seen l).filterMap
          (fun r => (parse r.CHART_DATE).map (recToRow r)) := by
  intro l
  induction l with
  | nil => intro seen; rfl
  | cons rec rest ih =>
    intro seen
    by_cases hmem : rec.CHART_DATE ∈ seen
    · rw [buildRowsAux, if_pos hmem, dedupFirstAux, if_pos hmem, ih]
    · rw [buildRowsAux, if_neg hmem, dedupFirstAux, if_neg hmem, List.filterMap_cons]
      cases hp : parse rec.CHART_DATE with
      | none => simp only [hp, Option.map_none', ih]
      | some d => simp only [hp, Option.map_some', ih]

theorem dedupFirstAux_dates :
    ∀ (l : List ChartRec) (seen : List Str),
      ((dedupFirstAux seen l).map (fun r => r.CHART_DATE)).Nodup ∧
      ∀ d ∈ (dedupFirstAux seen l).map (fun r => r.CHART_DATE), d ∉ seen := by
  intro l
  induction l with
  | nil => intro seen; exact ⟨List.nodup_nil, fun d hd => absurd hd (List.not_mem_nil d)⟩
  | cons rec rest ih =>
    intro seen
    by_cases hmem : rec.CHART_DATE ∈ seen
    · rw [dedupFirstAux, if_pos hmem]
      exact ih seen
    · rw [dedupFirstAux, if_neg hmem]
      obtain ⟨hnd, hout⟩ := ih (rec.CHART_DATE :: seen)
      rw [List.map_cons]
      refine ⟨List.nodup_cons.mpr ⟨fun hin => ?_, hnd⟩, fun d hd => ?_⟩
      · exact absurd (List.mem_cons_self _ _) (hout rec.CHART_DATE hin |> fun h => h)
      · rcases List.mem_cons.mp hd with rfl | hd2
        · exact hmem
        · exact fun hs => hout d hd2 (List.mem_cons_of_mem _ hs)

theorem countP_le_one_of_nodup_map {α β : Type} [DecidableEq β] (f : α → β) (d : β) :
    ∀ l : List α, ((l.map f).Nodup) →
      l.countP (fun a => decide (f a = d)) ≤ 1 := by
  intro l
  induction l with
  | nil => intro _; simp
  | cons a rest ih =>
    intro hnd
    rw [List.map_cons, List.nodup_cons] at hnd
    obtain ⟨hnotin, hnd2⟩ := hnd
    rw [List.countP_cons]
    by_cases hfa : f a = d
    · have hz : rest.countP (fun x => decide (f x = d)) = 0 := by
        rw [List.countP_eq_zero]
        intro x hx
        simp only [decide_eq_true_eq]
        intro hfx
        apply hnotin
        have hmm : f x ∈ List.map f rest := List.mem_map_of_mem f hx
        rwa [hfx, ← hfa] at hmm
      simp [hfa, hz]
    · simp [hfa, ih hnd2]

theorem countP_filterMap_rows_le (parse : Str → Option ℕ) (d : Str) :
    ∀ l : List ChartRec,
      (l.filterMap (fun r => (parse r.CHART_DATE).map (recToRow r))).countP
          (fun row => decide (row.srcDate = d)) ≤
        l.countP (fun r => decide (r.CHART_DATE = d)) := by
  intro l
  induction l with
  | nil => simp
  | cons rec rest ih =>
    rw [List.filterMap_cons, List.countP_cons]
    cases hp : parse rec.CHART_DATE with
    | none =>
      simp only [Option.map_none']
      exact le_trans ih (Nat.le_add_right _ _)
    | some dt =>
      simp only [Option.map_some']
      rw [List.countP_cons]
      have hsrc : (recToRow rec dt).srcDate = rec.CHART_DATE := rfl
      by_cases hd : rec.CHART_DATE = d
      · simp only [hsrc, hd, decide_True]
        omega
      · simp only [hsrc, hd, decide_False]
        omega

theorem countP_buildRows_le_one (parse : Str → Option ℕ) (cd : List ChartRec) (d : Str) :
    (buildRows parse cd).countP (fun row => decide (row.srcDate = d)) ≤ 1 := by
  rw [buildRows, buildRowsAux_eq_dedup_filterMap]
  refine le_trans (countP_filterMap_rows_le parse d _) ?_
  exact countP_le_one_of_nodup_map (fun r : ChartRec => r.CHART_DATE) d _
    (dedupFirstAux_dates cd []).1

/-- C3: the table built by `fetch_pse_edge_ohlcv` from any `chartData` array
contains at most one row per exact `CHART_DATE` string; the rows are exactly
the first occurrence per date string, in provider order, with the records
whose date string fails to parse dropped and all other first occurrences
kept. -/
theorem fetch_pse_edge_dedup (parse : Str → Option ℕ) :
    (∀ cd : List ChartRec,
      buildRows parse cd =
        (dedupFirst cd).filterMap
          (fun r => (parse r.CHART_DATE).map (recToRow r))) ∧
    (∀ (ids : Option (Str × Str)) (post : PostResult) (d : Str),
      (fetch_pse_edge_ohlcv ids post parse).countP
          (fun row => decide (row.srcDate = d)) ≤ 1) := by
  constructor
  · intro cd
    rw [buildRows, dedupFirst, buildRowsAux_eq_dedup_filterMap]
  · intro ids post d
    rcases ids with _ | p
    · simp [fetch_pse_edge_ohlcv]
    · rcases post with _ | ⟨status, body⟩
      · simp [fetch_pse_edge_ohlcv]
      · rcases body with _ | cd
        · simp only [fetch_pse_edge_ohlcv]
          split_ifs <;> simp
        · simp only [fetch_pse_edge_ohlcv]
          split_ifs with h1 h2 h3
          · simp
          · simp
          · simp
          · have hperm :=
              List.perm_insertionSort (fun a b : OhlcvRow => a.date ≤ b.date)
                (buildRows parse cd)
            rw [hperm.countP_eq]
            exact countP_buildRows_le_one parse cd d

/-- C2: whenever id resolution returns nothing, or the POST fails or returns
a non-200 status, or the body is unparseable, or `chartData` is empty, or no
record survives date parsing, `fetch_pse_edge_ohlcv` returns the empty
table.  (The function is total — every failure is converted to an empty
result rather than an exception.) -/
theorem fetch_pse_edge_empty_on_failure (ids : Option (Str × Str))
    (post : PostResult) (parse : Str → Option ℕ) :
    (ids = none ∨ post = .netFail ∨
      (∃ st body, post = .resp st body ∧ st ≠ 200) ∨
      (∃ st, post = .resp st none) ∨
      (∃ st, post = .resp st (some [])) ∨
      (∃ st cd, post = .resp st (some cd) ∧ buildRows parse cd = [])) →
    fetch_pse_edge_ohlcv ids post parse = [] := by
  intro h
  rcases h with rfl | rfl | ⟨st, body, rfl, hst⟩ | ⟨st, rfl⟩ | ⟨st, rfl⟩ | ⟨st, cd, rfl, hrows⟩
  · rfl
  · rcases ids with _ | p <;> rfl
  · rcases ids with _ | p
    · rfl
    · simp [fetch_pse_edge_ohlcv, hst]
  · rcases ids with _ | p
    · rfl
    · simp only [fetch_pse_edge_ohlcv]
      split_ifs <;> rfl
  · rcases ids with _ | p
    · rfl
    · simp only [fetch_pse_edge_ohlcv]
      split_ifs <;> rfl
  · rcases ids with _ | p
    · rfl
    · simp only [fetch_pse_edge_ohlcv]
      split_ifs <;> rfl

/-- Witness for C2: unresolved symbol (id resolution returns nothing). -/
theorem fetch_pse_edge_empty_witness :
    fetch_pse_edge_ohlcv none PostResult.netFail (fun _ => none) = [] :=
  fetch_pse_edge_empty_on_failure none PostResult.netFail (fun _ => none) (Or.inl rfl)

theorem foldl_min_le_init (l : List ℚ) : ∀ a : ℚ, l.foldl min a ≤ a := by
  induction l with
  | nil => intro a; exact le_refl a
  | cons x rest ih =>
    intro a
    rw [List.foldl_cons]
    exact le_trans (ih (min a x)) (min_le_left a x)

theorem foldl_min_eq_init (l : List ℚ) : ∀ a : ℚ, (∀ x ∈ l, a ≤ x) → l.foldl min a = a := by
  induction l with
  | nil => intro a _; rfl
  | cons x rest ih =>
    intro a h
    rw [List.foldl_cons, min_eq_left (h x (List.mem_cons_self x rest))]
    exact ih a (fun y hy => h y (List.mem_cons_of_mem x hy))

theorem zipWith_eq_map_zip {α β γ : Type} (f : α → β → γ) :
    ∀ (l1 : List α) (l2 : List β),
      List.zipWith f l1 l2 = (List.zip l1 l2).map (fun p => f p.1 p.2) := by
  intro l1
  induction l1 with
  | nil => intro l2; rfl
  | cons a r ih =>
    intro l2
    cases l2 with
    | nil => rfl
    | cons b s => simp [List.zip_cons_cons, ih]

theorem cummaxFrom_ge :
    ∀ (cs : List ℚ) (m : ℚ), ∀ p ∈ List.zip cs (cummaxFrom m cs), p.1 ≤ p.2 := by
  intro cs
  induction cs with
  | nil => intro m p hp; cases hp
  | cons c rest ih =>
    intro m p hp
    rw [cummaxFrom, List.zip_cons_cons] at hp
    rcases List.mem_cons.mp hp with rfl | hp2
    · exact le_max_right m c
    · exact ih (max m c) p hp2

/-- C4 (amended): for every non-empty OHLCV close series (primary branch of
`fetch_price_movement`), `max_drawdown_pct` is non-positive, and it equals 0
whenever no close ever falls below the running maximum of closes.  (The
converse fails: a decline small enough to round to 0.00 also yields 0 — see
the counterexample.) -/
theorem maxDrawdownPct_nonpos (closes : List ℚ) (hne : closes ≠ []) :
    maxDrawdownPct closes ≤ 0 ∧ (noDecline closes → maxDrawdownPct closes = 0) := by
  rcases closes with _ | ⟨c, cs⟩
  · exact absurd rfl hne
  have hdd : drawdownList (c :: cs) =
      0 :: List.zipWith (fun x m => (x - m) / m * 100) cs (cummaxFrom c cs) := by
    unfold drawdownList cummaxList
    rw [List.zipWith_cons_cons]
    congr 1
    rw [sub_self, zero_div, zero_mul]
  constructor
  · rw [maxDrawdownPct, hdd]
    show pyRound 2 (List.foldl min 0
      (List.zipWith (fun x m => (x - m) / m * 100) cs (cummaxFrom c cs))) ≤ 0
    exact pyRound_nonpos 2 (foldl_min_le_init _ 0)
  · intro hnd
    rw [maxDrawdownPct, hdd]
    show pyRound 2 (List.foldl min 0
      (List.zipWith (fun x m => (x - m) / m * 100) cs (cummaxFrom c cs))) = 0
    have hall : ∀ x ∈ List.zipWith (fun x m => (x - m) / m * 100) cs (cummaxFrom c cs),
        (0 : ℚ) ≤ x := by
      intro x hx
      rw [zipWith_eq_map_zip] at hx
      rcases List.mem_map.mp hx with ⟨p, hp, rfl⟩
      have h1 : p.1 ≤ p.2 := cummaxFrom_ge cs c p hp
      have h2 : p.2 ≤ p.1 := by
        apply hnd
        rw [show List.zip (c :: cs) (cummaxList (c :: cs)) =
            (c, c) :: List.zip cs (cummaxFrom c cs) from by
          unfold cummaxList; rw [List.zip_cons_cons]]
        exact List.mem_cons_of_mem _ hp
      have : p.1 = p.2 := le_antisymm h1 h2
      rw [this, sub_self, zero_div, zero_mul]
    rw [foldl_min_eq_init _ 0 hall, pyRound_zero]

/-- Witness for C4: a falling series has non-positive drawdown; a rising
series (no close below the running maximum) has drawdown exactly 0. -/
theorem maxDrawdownPct_witness :
    maxDrawdownPct [10, 9] ≤ 0 ∧ maxDrawdownPct [10, 11] = 0 :=
  ⟨(maxDrawdownPct_nonpos [10, 9] (by decide)).1,
    (maxDrawdownPct_nonpos [10, 11] (by decide)).2 (by unfold noDecline; decide)⟩

/-- Counterexample for C4 as stated: for closes `[100000, 99999]` the last
close falls below the running maximum, yet the rounded `max_drawdown_pct`
is exactly 0 (the raw minimum drawdown −0.001 % rounds to −0.00). -/
theorem maxDrawdownPct_cex :
    maxDrawdownPct [100000, 99999] = 0 ∧ ¬ noDecline [100000, 99999] := by
  constructor
  · with_unfolding_all decide
  · intro h
    have := h (99999, 100000) (by unfold cummaxList cummaxFrom; decide)
    exact absurd this (by decide)

/-- C5: when the upstream dividend yield is a plausible percentage in
(0, 100], the stored `dividend_yield` lies in [0, 1]; raw values > 1 are
divided by 100 before storage and raw values in (0, 1] are stored
unchanged. -/
theorem dividend_yield_normalized (symbol : Str) (p : DfProfile)
    (nit rt ft : List (Str × ℚ))
    (h0 : 0 < p.dividendYield) (h100 : p.dividendYield ≤ 100) :
    0 ≤ (fetch_dividend_info symbol (some p) nit rt ft).dividend_yield ∧
    (fetch_dividend_info symbol (some p) nit rt ft).dividend_yield ≤ 1 ∧
    (1 < p.dividendYield →
      (fetch_dividend_info symbol (some p) nit rt ft).dividend_yield =
        p.dividendYield / 100) ∧
    (p.dividendYield ≤ 1 →
      (fetch_dividend_info symbol (some p) nit rt ft).dividend_yield =
        p.dividendYield) := by
  by_cases h1 : 1 < p.dividendYield
  · have heq : (fetch_dividend_info symbol (some p) nit rt ft).dividend_yield =
        p.dividendYield / 100 := by
      simp [fetch_dividend_info, h0, h1]
    rw [heq]
    refine ⟨by positivity, by linarith, fun _ => rfl, fun hle => absurd h1 (not_lt.mpr hle)⟩
  · have heq : (fetch_dividend_info symbol (some p) nit rt ft).dividend_yield =
        p.dividendYield := by
      simp [fetch_dividend_info, h0, h1]
    rw [heq]
    push_neg at h1
    exact ⟨le_of_lt h0, h1, fun hgt => absurd hgt (not_lt.mpr h1), fun _ => rfl⟩

/-- Witness for C5: the DragonFi-style percentage yield 5.54 is stored as
0.0554. -/
theorem dividend_yield_witness :
    (0 : ℚ) < 554 / 100 ∧ (554 : ℚ) / 100 ≤ 100 ∧
    (fetch_dividend_info (strCodes "AREIT")
        (some { stockCode := none, dividendYield := 554 / 100, price := 435 / 10,
                sharesOutstanding := 0, isREIT := true }) [] [] []).dividend_yield =
      554 / 100 / 100 :=
  ⟨by norm_num, by norm_num,
    (dividend_yield_normalized (strCodes "AREIT")
        { stockCode := none, dividendYield := 554 / 100, price := 435 / 10,
          sharesOutstanding := 0, isREIT := true } [] [] []
        (by norm_num) (by norm_num)).2.2.1 (by norm_num)⟩

theorem grahamNumber_nonneg (eps bookValue : ℝ) : 0 ≤ grahamNumber eps bookValue := by
  unfold grahamNumber
  split_ifs
  · exact pyRound_nonneg 2 (Real.sqrt_nonneg _)
  · exact le_refl 0

/-- C6: the Graham-number fair value is monotone: holding book value fixed
and strictly positive, increasing EPS never decreases the result, and
holding EPS fixed and strictly positive, increasing book value never
decreases it — including across the boundary where the increasing input
passes from non-positive (result 0) to positive (result
`round(sqrt(22.5 · eps · bv), 2)`). -/
theorem grahamNumber_mono :
    (∀ bv e₁ e₂ : ℝ, 0 < bv → e₁ ≤ e₂ →
      grahamNumber e₁ bv ≤ grahamNumber e₂ bv) ∧
    (∀ eps b₁ b₂ : ℝ, 0 < eps → b₁ ≤ b₂ →
      grahamNumber eps b₁ ≤ grahamNumber eps b₂) := by
  constructor
  · intro bv e₁ e₂ hbv he
    by_cases h1 : 0 < e₁
    · have h2 : 0 < e₂ := lt_of_lt_of_le h1 he
      unfold grahamNumber
      rw [if_pos ⟨h1, hbv⟩, if_pos ⟨h2, hbv⟩]
      apply pyRound_mono
      apply Real.sqrt_le_sqrt
      nlinarith
    · have hz : grahamNumber e₁ bv = 0 := by
        unfold grahamNumber
        rw [if_neg (fun hc => h1 hc.1)]
      rw [hz]
      exact grahamNumber_nonneg e₂ bv
  · intro eps b₁ b₂ heps hb
    by_cases h1 : 0 < b₁
    · have h2 : 0 < b₂ := lt_of_lt_of_le h1 hb
      unfold grahamNumber
      rw [if_pos ⟨heps, h1⟩, if_pos ⟨heps, h2⟩]
      apply pyRound_mono
      apply Real.sqrt_le_sqrt
      nlinarith
    · have hz : grahamNumber eps b₁ = 0 := by
        unfold grahamNumber
        rw [if_neg (fun hc => h1 hc.2)]
      rw [hz]
      exact grahamNumber_nonneg eps b₂

/-- Witness for C6: monotonicity applied across the boundary at
eps = −1 ≤ 1 with book value 1, and in the second argument at 1 ≤ 2. -/
theorem grahamNumber_mono_witness :
    grahamNumber (-1) 1 ≤ grahamNumber 1 1 ∧ grahamNumber 1 1 ≤ grahamNumber 1 2 :=
  ⟨grahamNumber_mono.1 1 (-1) 1 one_pos (by norm_num),
    grahamNumber_mono.2 1 1 2 one_pos one_le_two⟩

theorem notableResults_mem {thr : ℚ} {rows : List OhlcvRow}
    {p : ℚ × NotableDesc} (hp : p ∈ notableResults thr rows) :
    p.1 = |p.2.bodyPct| ∧ p.2.Open ≠ 0 ∧ thr ≤ |p.2.bodyPct| ∧
    p.2.bodyPct = (p.2.Close - p.2.Open) / p.2.Open * 100 := by
  rcases List.mem_filterMap.mp hp with ⟨r, _, hr⟩
  by_cases hop : r.Open = 0
  · rw [if_pos hop] at hr
    cases hr
  · rw [if_neg hop] at hr
    simp only [] at hr
    by_cases hth : thr ≤ |(r.Close - r.Open) / r.Open * 100|
    · rw [if_pos hth] at hr
      injection hr with hr
      subst hr
      exact ⟨rfl, hop, hth, rfl⟩
    · rw [if_neg hth] at hr
      cases hr

theorem detectNotableCandles_mem {thr : ℚ} {n : ℕ} {rows : List OhlcvRow}
    {d : NotableDesc} (hd : d ∈ detectNotableCandles thr n rows) :
    d.Open ≠ 0 ∧ thr ≤ |d.bodyPct| ∧
    d.bodyPct = (d.Close - d.Open) / d.Open * 100 := by
  unfold detectNotableCandles at hd
  rcases List.mem_map.mp hd with ⟨p, hp, rfl⟩
  have hp2 : p ∈ List.insertionSort (fun a b => b.1 ≤ a.1) (notableResults thr rows) :=
    List.mem_of_mem_take hp
  have hp3 : p ∈ notableResults thr rows :=
    (List.perm_insertionSort _ _).mem_iff.mp hp2
  obtain ⟨_, h2, h3, h4⟩ := notableResults_mem hp3
  exact ⟨h2, h3, h4⟩

/-- C8 (amended): the output of `_detect_notable_candles` is sorted by
non-increasing absolute body percentage (ties keep provider order: the sort
is stable, so equal magnitudes may repeat — strict descent fails, see the
counterexample), has length at most `top_n`, and every entry comes from a
row with non-zero open whose absolute body percentage meets the
threshold. -/
theorem detectNotableCandles_sorted (thr : ℚ) (n : ℕ) (rows : List OhlcvRow) :
    List.Chain' (fun a b => |b.bodyPct| ≤ |a.bodyPct|)
      (detectNotableCandles thr n rows) ∧
    (detectNotableCandles thr n rows).length ≤ n ∧
    (∀ d ∈ detectNotableCandles thr n rows,
      d.Open ≠ 0 ∧ thr ≤ |d.bodyPct| ∧
      d.bodyPct = (d.Close - d.Open) / d.Open * 100) := by
  refine ⟨?_, ?_, fun d hd => detectNotableCandles_mem hd⟩
  · haveI htot : IsTotal (ℚ × NotableDesc) (fun a b => b.1 ≤ a.1) :=
      ⟨fun a b => le_total b.1 a.1⟩
    haveI htr : IsTrans (ℚ × NotableDesc) (fun a b => b.1 ≤ a.1) :=
      ⟨fun _ _ _ h1 h2 => le_trans h2 h1⟩
    have hsorted : List.Sorted (fun a b : ℚ × NotableDesc => b.1 ≤ a.1)
        (List.insertionSort (fun a b => b.1 ≤ a.1) (notableResults thr rows)) :=
      List.sorted_insertionSort _ _
    have htake : ((List.insertionSort (fun a b => b.1 ≤ a.1)
        (notableResults thr rows)).take n).Pairwise
          (fun a b : ℚ × NotableDesc => b.1 ≤ a.1) :=
      List.Pairwise.sublist (List.take_sublist n _) hsorted
    have hpair : ((List.insertionSort (fun a b => b.1 ≤ a.1)
        (notableResults thr rows)).take n).Pairwise
          (fun a b : ℚ × NotableDesc => |b.2.bodyPct| ≤ |a.2.bodyPct|) := by
      refine List.Pairwise.imp_of_mem ?_ htake
      intro a b ha hb hle
      have hma : a ∈ notableResults thr rows :=
        (List.perm_insertionSort _ _).mem_iff.mp (List.mem_of_mem_take ha)
      have hmb : b ∈ notableResults thr rows :=
        (List.perm_insertionSort _ _).mem_iff.mp (List.mem_of_mem_take hb)
      rw [← (notableResults_mem hma).1, ← (notableResults_mem hmb).1]
      exact hle
    exact List.Pairwise.chain' (List.pairwise_map.mpr hpair)
  · unfold detectNotableCandles
    rw [List.length_map]
    exact List.length_take_le n _

/-- Witness for C8: on a single large bullish candle the detector returns
one entry satisfying all clauses. -/
theorem detectNotableCandles_witness :
    NotableDesc.mk 0 100 110 100 110 10 true ∈
      detectNotableCandles 5 5 [⟨[], 0, 100, 110, 100, 110, 0⟩] ∧
    (NotableDesc.mk 0 100 110 100 110 10 true).Open ≠ 0 ∧
    (5 : ℚ) ≤ |(NotableDesc.mk 0 100 110 100 110 10 true).bodyPct| :=
  ⟨by with_unfolding_all decide, by
    have h := (detectNotableCandles_sorted 5 5 [⟨[], 0, 100, 110, 100, 110, 0⟩]).2.2
      (NotableDesc.mk 0 100 110 100 110 10 true) (by with_unfolding_all decide)
    exact ⟨h.1, h.2.1⟩⟩

/-- Counterexample for C8 as stated: two identical 10 %-body candles give
two output entries with equal absolute body percentage, so the ordering is
not strictly descending. -/
theorem detectNotableCandles_cex :
    ¬ List.Chain' (fun a b => |b.bodyPct| < |a.bodyPct|)
      (detectNotableCandles 5 5
        [⟨[], 0, 100, 110, 100, 110, 0⟩, ⟨[], 1, 100, 110, 100, 110, 0⟩]) := by
  intro hch
  rw [show detectNotableCandles 5 5
        [⟨[], 0, 100, 110, 100, 110, 0⟩, ⟨[], 1, 100, 110, 100, 110, 0⟩] =
      [NotableDesc.mk 0 100 110 100 110 10 true,
        NotableDesc.mk 1 100 110 100 110 10 true] from by with_unfolding_all decide] at hch
  have := (List.chain'_cons.mp hch).1
  simp at this


/-- C10: invariant of the `_ID_CACHE`: a cached symbol is answered from the
cache without consulting the network; a call in which either resolution
step fails (or yields a falsy id) returns `None` and stores nothing, so the
symbol is re-attempted on the next call; and a successful call stores
exactly the fully resolved `(cmpy_id, security_id)` pair under the
uppercased ticker (uppercasing is idempotent, so cache keys are
uppercased tickers). -/
theorem resolveIds_cache_spec (env : EdgeResolveEnv)
    (cache : List (Str × (Str × Str))) (symbol : Str) :
    (∀ p, lookupA cache (pyUpper symbol) = some p →
      resolveIds env cache symbol = (some p, cache, false)) ∧
    ((resolveIds env cache symbol).1 = none →
      (resolveIds env cache symbol).2.1 = cache) ∧
    (∀ cid sid, lookupA cache (pyUpper symbol) = none →
      env.autoComplete (pyUpper symbol) = some cid → cid ≠ [] →
      env.stockDataPage cid = some sid → sid ≠ [] →
      resolveIds env cache symbol =
        (some (cid, sid), (pyUpper symbol, (cid, sid)) :: cache, true)) ∧
    pyUpper (pyUpper symbol) = pyUpper symbol := by
  refine ⟨?_, ?_, ?_, pyUpper_idem symbol⟩
  · intro p hp
    simp only [resolveIds, hp]
  · cases hl : lookupA cache (pyUpper symbol) with
    | some p =>
      simp only [resolveIds, hl]
      intro h
      simp at h
    | none =>
      cases hc : env.autoComplete (pyUpper symbol) with
      | none =>
        simp only [resolveIds, hl, hc]
        intro _
        trivial
      | some cid =>
        by_cases hcid : cid = []
        · simp only [resolveIds, hl, hc, if_pos hcid]
          intro _
          trivial
        · cases hs : env.stockDataPage cid with
          | none =>
            simp only [resolveIds, hl, hc, if_neg hcid, hs]
            intro _
            trivial
          | some sid =>
            by_cases hsid : sid = []
            · simp only [resolveIds, hl, hc, if_neg hcid, hs, if_pos hsid]
              intro _
              trivial
            · simp only [resolveIds, hl, hc, if_neg hcid, hs, if_neg hsid]
              intro h
              simp at h
  · intro cid sid hl hc hcid hs hsid
    simp only [resolveIds, hl, hc, if_neg hcid, hs, if_neg hsid]

/-- Witness for C10: a successful two-step resolution on an empty cache
stores the resolved pair under the uppercased ticker. -/
theorem resolveIds_cache_witness :
    resolveIds edgeEnvW [] (strCodes "jfc") =
      (some (strCodes "600", strCodes "146"),
        [(strCodes "JFC", (strCodes "600", strCodes "146"))], true) :=
  (resolveIds_cache_spec edgeEnvW [] (strCodes "jfc")).2.2.1
    (strCodes "600") (strCodes "146") rfl rfl (by decide) rfl (by decide)
